import Mathlib

/-!
Verification of the `egcd` package (file `src/egcd/egcd.py`), a pure
iterative implementation of the extended Euclidean algorithm.

The Python function is

  def egcd(b, n):
      (x0, x1, y0, y1) = (1, 0, 0, 1)
      while n != 0:
          (q, b, n) = (b // n, n, b % n)
          (x0, x1) = (x1, x0 - q * x1)
          (y0, y1) = (y1, y0 - q * y1)
      return (b, x0, y0)

Python's `//` and `%` are floor division and floor modulo, which coincide
with Lean's `Int.fdiv` and `Int.fmod`.  The while loop is embedded as the
well-founded recursion `egcdLoop` on `n.natAbs`; a fuel-indexed variant
`egcdCheckedFuel` (returning `none` on fuel exhaustion or on a division
by zero) is used both to evaluate the function on concrete inputs and to
model Python's division-by-zero error.
-/

namespace EgcdPy

/-- Bounds for floor modulo with a negative divisor: the remainder has the
sign of the divisor (or is zero) and is strictly smaller in magnitude. -/
theorem fmod_bounds_neg : ∀ (a : Int) {b : Int}, b < 0 →
    b < Int.fmod a b ∧ Int.fmod a b ≤ 0 := by
  intro a b hb
  obtain ⟨k, rfl⟩ := Int.eq_negSucc_of_lt_zero hb
  match a with
  | Int.ofNat 0 =>
    rw [show Int.fmod (Int.ofNat 0) (Int.negSucc k) = 0 from rfl]
    omega
  | Int.ofNat (Nat.succ m) =>
    rw [show Int.fmod (Int.ofNat (Nat.succ m)) (Int.negSucc k)
          = Int.subNatNat (m % Nat.succ k) k from rfl,
        Int.subNatNat_eq_coe]
    have h1 : m % Nat.succ k < Nat.succ k := Nat.mod_lt _ (Nat.succ_pos k)
    simp only [Int.negSucc_eq]
    omega
  | Int.negSucc m =>
    rw [show Int.fmod (Int.negSucc m) (Int.negSucc k)
          = -Int.ofNat (Nat.succ m % Nat.succ k) from rfl]
    have h1 : Nat.succ m % Nat.succ k < Nat.succ k := Nat.mod_lt _ (Nat.succ_pos k)
    simp only [Int.negSucc_eq, Int.ofNat_eq_coe]
    omega

/-- Bounds for floor modulo with a positive divisor. -/
theorem fmod_bounds_pos (a : Int) {b : Int} (hb : 0 < b) :
    0 ≤ Int.fmod a b ∧ Int.fmod a b < b :=
  ⟨Int.fmod_nonneg' a hb, Int.fmod_lt_of_pos a hb⟩

/-- The sequence of floor-modulo remainders strictly decreases in absolute
value: for a nonzero divisor `n`, `|b mod n| < |n|`. -/
theorem natAbs_fmod_lt (b n : Int) (hn : n ≠ 0) :
    (Int.fmod b n).natAbs < n.natAbs := by
  rcases lt_trichotomy n 0 with h | h | h
  · have := fmod_bounds_neg b h
    omega
  · exact absurd h hn
  · have := fmod_bounds_pos b h
    omega

/-- The `while n != 0` loop of `egcd` (`egcd.py` lines 48-51), embedded as a
function of the loop state `(b, n, x0, x1, y0, y1)`.  Each iteration performs
`(q, b, n) = (b // n, n, b % n)`, `(x0, x1) = (x1, x0 - q*x1)` and
`(y0, y1) = (y1, y0 - q*y1)`; on exit the loop returns `(b, x0, y0)`
(line 52).  Total by well-founded recursion on `n.natAbs`. -/
def egcdLoop (b n x0 x1 y0 y1 : Int) : Int × Int × Int :=
  if n = 0 then (b, x0, y0)
  else egcdLoop n (Int.fmod b n) x1 (x0 - Int.fdiv b n * x1) y1 (y0 - Int.fdiv b n * y1)
termination_by n.natAbs
decreasing_by exact natAbs_fmod_lt b n (by assumption)

/-- The function `egcd(b, n)` of `egcd.py` lines 47-52: the loop started from
`(x0, x1, y0, y1) = (1, 0, 0, 1)`. -/
def egcd (b n : Int) : Int × Int × Int :=
  egcdLoop b n 1 0 0 1

/-- Unfolding of `egcdLoop` when the guard `n != 0` fails. -/
theorem egcdLoop_zero (b x0 x1 y0 y1 : Int) :
    egcdLoop b 0 x0 x1 y0 y1 = (b, x0, y0) := by
  rw [egcdLoop]; simp

/-- Unfolding of `egcdLoop` when the guard `n != 0` holds: one loop
iteration. -/
theorem egcdLoop_step (b x0 x1 y0 y1 : Int) {n : Int} (hn : n ≠ 0) :
    egcdLoop b n x0 x1 y0 y1
      = egcdLoop n (Int.fmod b n) x1 (x0 - Int.fdiv b n * x1) y1
          (y0 - Int.fdiv b n * y1) := by
  rw [egcdLoop]; simp [hn]

/-- Modelled from the spec: Python's `b // n` raises `ZeroDivisionError` when
`n == 0`; the checked floor division returns `none` exactly in that case. -/
def fdivChecked (a b : Int) : Option Int :=
  if b = 0 then none else some (Int.fdiv a b)

/-- Modelled from the spec: Python's `b % n` raises `ZeroDivisionError` when
`n == 0`; the checked floor modulo returns `none` exactly in that case. -/
def fmodChecked (a b : Int) : Option Int :=
  if b = 0 then none else some (Int.fmod a b)

/-- Fuel-indexed variant of the `egcd` loop in which every division is
checked: it returns `none` if fuel runs out or if a division by zero is
attempted, and `some` of the loop's result otherwise. -/
def egcdCheckedFuel : Nat → Int → Int → Int → Int → Int → Int → Option (Int × Int × Int)
  | 0, _, _, _, _, _, _ => none
  | fuel + 1, b, n, x0, x1, y0, y1 =>
    if n = 0 then some (b, x0, y0)
    else
      match fdivChecked b n, fmodChecked b n with
      | some q, some r => egcdCheckedFuel fuel n r x1 (x0 - q * x1) y1 (y0 - q * y1)
      | _, _ => none

/-- `egcd` with checked divisions, run with enough fuel for the remainder
sequence `|n| > |b mod n| > ...` to reach `0`. -/
def egcdChecked (b n : Int) : Option (Int × Int × Int) :=
  egcdCheckedFuel (n.natAbs + 1) b n 1 0 0 1

/-- A `some` answer of the checked, fuel-indexed loop agrees with the
well-founded loop. -/
theorem egcdCheckedFuel_sound : ∀ (fuel : Nat) (b n x0 x1 y0 y1 : Int)
    (t : Int × Int × Int), egcdCheckedFuel fuel b n x0 x1 y0 y1 = some t →
    egcdLoop b n x0 x1 y0 y1 = t := by
  intro fuel
  induction fuel with
  | zero => intro b n x0 x1 y0 y1 t h; exact absurd h (by simp [egcdCheckedFuel])
  | succ fuel ih =>
    intro b n x0 x1 y0 y1 t h
    by_cases hn : n = 0
    · subst hn
      simp [egcdCheckedFuel] at h
      rw [egcdLoop_zero, h]
    · rw [egcdCheckedFuel] at h
      simp only [hn, if_false, fdivChecked, fmodChecked, if_neg hn] at h
      rw [egcdLoop_step _ _ _ _ _ hn]
      exact ih _ _ _ _ _ _ _ h

/-- With more fuel than `|n|`, the checked loop cannot fail: it returns
`some` of the well-founded loop's result. -/
theorem egcdCheckedFuel_complete : ∀ (fuel : Nat) (b n x0 x1 y0 y1 : Int),
    n.natAbs < fuel →
    egcdCheckedFuel fuel b n x0 x1 y0 y1 = some (egcdLoop b n x0 x1 y0 y1) := by
  intro fuel
  induction fuel with
  | zero => intro b n x0 x1 y0 y1 h; exact absurd h (Nat.not_lt_zero _)
  | succ fuel ih =>
    intro b n x0 x1 y0 y1 h
    by_cases hn : n = 0
    · subst hn
      rw [egcdLoop_zero, egcdCheckedFuel]
      simp
    · rw [egcdCheckedFuel, egcdLoop_step _ _ _ _ _ hn]
      simp only [hn, if_false, fdivChecked, fmodChecked, if_neg hn]
      exact ih _ _ _ _ _ _ (by have := natAbs_fmod_lt b n hn; omega)

/-- Modelled from the spec's words, for the refinement claim: the plain
iterated Euclidean remainder process, repeatedly setting `b, n = n, b mod n`
with floor modulo until `n == 0`, then taking the resulting `b`. -/
def euclid (b n : Int) : Int :=
  if n = 0 then b
  else euclid n (Int.fmod b n)
termination_by n.natAbs
decreasing_by exact natAbs_fmod_lt b n (by assumption)

/-- Unfolding of `euclid` at `n = 0`. -/
theorem euclid_zero (b : Int) : euclid b 0 = b := by
  rw [euclid]; simp

/-- Unfolding of `euclid` at `n ≠ 0`. -/
theorem euclid_step (b : Int) {n : Int} (hn : n ≠ 0) :
    euclid b n = euclid n (Int.fmod b n) := by
  rw [euclid]; simp [hn]

/-- The first component of the loop state on exit is exactly the plain
Euclidean remainder iteration: the Bézout coefficients do not feed back into
the remainder chain. -/
theorem egcdLoop_fst : ∀ b n x0 x1 y0 y1 : Int,
    (egcdLoop b n x0 x1 y0 y1).1 = euclid b n := by
  intro b n x0 x1 y0 y1
  induction b, n, x0, x1, y0, y1 using egcdLoop.induct with
  | case1 b x0 x1 y0 y1 => rw [egcdLoop_zero, euclid_zero]
  | case2 b n x0 x1 y0 y1 hn ih =>
    rw [egcdLoop_step _ _ _ _ _ hn, euclid_step _ hn]
    exact ih

/-- The result of the Euclidean remainder iteration divides both inputs. -/
theorem euclid_dvd : ∀ b n : Int, euclid b n ∣ b ∧ euclid b n ∣ n := by
  intro b n
  induction b, n using euclid.induct with
  | case1 b => rw [euclid_zero]; exact ⟨dvd_refl b, dvd_zero b⟩
  | case2 b n hn ih =>
    rw [euclid_step _ hn]
    rcases ih with ⟨h1, h2⟩
    refine ⟨?_, h1⟩
    have h3 := dvd_add (h1.mul_right (Int.fdiv b n)) h2
    rwa [Int.fdiv_add_fmod b n] at h3

/-- Loop invariant of `egcd`, in Hoare-logic form: if the Bézout relations
`x0*B + y0*N = b` and `x1*B + y1*N = n` hold on entry, the loop's result
`(g, a, m)` satisfies `a*B + m*N = g`. -/
theorem egcdLoop_bezout (B N : Int) : ∀ b n x0 x1 y0 y1 : Int,
    x0 * B + y0 * N = b → x1 * B + y1 * N = n →
    (egcdLoop b n x0 x1 y0 y1).2.1 * B + (egcdLoop b n x0 x1 y0 y1).2.2 * N
      = (egcdLoop b n x0 x1 y0 y1).1 := by
  intro b n x0 x1 y0 y1
  induction b, n, x0, x1, y0, y1 using egcdLoop.induct with
  | case1 b x0 x1 y0 y1 =>
    intro h0 _
    rw [egcdLoop_zero]
    exact h0
  | case2 b n x0 x1 y0 y1 hn ih =>
    intro h0 h1
    rw [egcdLoop_step _ _ _ _ _ hn]
    apply ih
    · exact h1
    · rw [Int.fmod_def b n]
      linear_combination h0 - Int.fdiv b n * h1

/-- The magnitude of the Euclidean remainder iteration's result is the
standard non-negative greatest common divisor, for all integer inputs. -/
theorem euclid_natAbs (b n : Int) : (euclid b n).natAbs = Int.gcd b n := by
  have hd := euclid_dvd b n
  have hbez : (egcd b n).2.1 * b + (egcd b n).2.2 * n = euclid b n := by
    have h := egcdLoop_bezout b n b n 1 0 0 1 (by ring) (by ring)
    rw [egcdLoop_fst] at h
    exact h
  apply Nat.dvd_antisymm
  · exact Nat.dvd_gcd (Int.natAbs_dvd_natAbs.mpr hd.1) (Int.natAbs_dvd_natAbs.mpr hd.2)
  · have h1 : (Int.gcd b n : Int) ∣ euclid b n := by
      rw [← hbez]
      exact dvd_add (Int.gcd_dvd_left.mul_left _) (Int.gcd_dvd_right.mul_left _)
    have h2 := Int.natAbs_dvd_natAbs.mpr h1
    simpa using h2

/-- A nonzero floor-modulo remainder has the sign of the divisor. -/
theorem fmod_sign {b n : Int} (hn : n ≠ 0) (hf : Int.fmod b n ≠ 0) :
    Int.sign (Int.fmod b n) = Int.sign n := by
  rcases lt_trichotomy n 0 with h | h | h
  · have hb := fmod_bounds_neg b h
    rw [Int.sign_eq_neg_one_of_neg (by omega), Int.sign_eq_neg_one_of_neg h]
  · exact absurd h hn
  · have hb := fmod_bounds_pos b h
    rw [Int.sign_eq_one_of_pos (by omega), Int.sign_eq_one_of_pos h]

/-- When `n ≠ 0`, the Euclidean remainder iteration's result has the sign of
`n`, the second argument (in particular it is nonzero). -/
theorem euclid_sign : ∀ b n : Int, n ≠ 0 → Int.sign (euclid b n) = Int.sign n := by
  intro b n
  induction b, n using euclid.induct with
  | case1 b => intro h; exact absurd rfl h
  | case2 b n hn ih =>
    intro _
    rw [euclid_step _ hn]
    by_cases hf : Int.fmod b n = 0
    · rw [hf, euclid_zero]
    · rw [ih hf, fmod_sign hn hf]

/-- The loop body of `egcd` (`egcd.py` lines 49-51) as a function on the
state `(b, n, x0, x1, y0, y1)`: one simultaneous update
`(q, b, n) = (b // n, n, b % n)`, `(x0, x1) = (x1, x0 - q*x1)`,
`(y0, y1) = (y1, y0 - q*y1)`. -/
def egcdBody : Int × Int × Int × Int × Int × Int → Int × Int × Int × Int × Int × Int
  | (b, n, x0, x1, y0, y1) =>
    (n, Int.fmod b n, x1, x0 - Int.fdiv b n * x1, y1, y0 - Int.fdiv b n * y1)

/-- The loop invariant of `egcd` with respect to the original arguments
`B` and `N`: the Bézout relations `x0*B + y0*N = b` and `x1*B + y1*N = n`. -/
def egcdInv (B N : Int) : Int × Int × Int × Int × Int × Int → Prop
  | (b, n, x0, x1, y0, y1) => x0 * B + y0 * N = b ∧ x1 * B + y1 * N = n

instance (B N : Int) (s : Int × Int × Int × Int × Int × Int) :
    Decidable (egcdInv B N s) :=
  match s with
  | (b, n, x0, x1, y0, y1) =>
    inferInstanceAs (Decidable (x0 * B + y0 * N = b ∧ x1 * B + y1 * N = n))

/-- C1: for all integers `b` and `n`, if `(g, a, m) = egcd(b, n)`, then
`g = a*b + m*n` holds exactly. -/
theorem egcd_bezout_identity (b n : Int) :
    (egcd b n).1 = (egcd b n).2.1 * b + (egcd b n).2.2 * n :=
  (egcdLoop_bezout b n b n 1 0 0 1 (by ring) (by ring)).symm

/-- C2: for `b` and `n` both non-negative and not both zero, the absolute
value of the first component `g` of `egcd b n` equals the standard
non-negative greatest common divisor of `b` and `n` (this covers in
particular every `b` and `n` in `[0, 200)` apart from the excluded pair
`(0, 0)`). -/
theorem egcd_fst_natAbs_gcd (b n : Int) (_hb : 0 ≤ b) (_hn : 0 ≤ n)
    (_h : ¬(b = 0 ∧ n = 0)) : ((egcd b n).1).natAbs = Int.gcd b n := by
  rw [show (egcd b n).1 = euclid b n from egcdLoop_fst b n 1 0 0 1]
  exact euclid_natAbs b n

/-- Witness for C2 at `b = 12`, `n = 8`. -/
theorem egcd_fst_natAbs_gcd_witness : ((egcd 12 8).1).natAbs = Int.gcd 12 8 :=
  egcd_fst_natAbs_gcd 12 8 (by decide) (by decide) (by decide)

/-- C3: for all integers `b` and `n`, the first component of `egcd b n`
equals the value produced by the plain iterated Euclidean remainder process
`b, n = n, b mod n` (floor modulo) until `n = 0`. -/
theorem egcd_fst_euclid (b n : Int) : (egcd b n).1 = euclid b n :=
  egcdLoop_fst b n 1 0 0 1

/-- Counterexample to C4 as stated: at `b = -4`, `n = 6` the function
returns `(2, 1, 1)`, whose first component has sign `+1` while the original
argument `b` has sign `-1`, so the sign of `g` does not follow the sign of
`b`. -/
theorem egcd_sign_counterexample :
    ¬ Int.sign (egcd (-4) 6).1 = Int.sign (-4 : Int) := by
  have h : egcd (-4) 6 = (2, 1, 1) :=
    egcdCheckedFuel_sound 7 (-4) 6 1 0 0 1 (2, 1, 1) (by decide)
  rw [h]
  decide

/-- C4 amended: for all integers `b` and `n`, the first component `g` of
`egcd b n` matches the mathematical GCD in magnitude; when `n = 0` the
result is `b` itself (so its sign follows `b`), and when `n ≠ 0` its sign
follows the sign of the second argument `n`, not of `b`. -/
theorem egcd_fst_magnitude_sign (b n : Int) :
    ((egcd b n).1).natAbs = Int.gcd b n ∧
    (n = 0 → (egcd b n).1 = b) ∧
    (n ≠ 0 → Int.sign (egcd b n).1 = Int.sign n) := by
  have hf : (egcd b n).1 = euclid b n := egcdLoop_fst b n 1 0 0 1
  refine ⟨?_, ?_, ?_⟩
  · rw [hf]; exact euclid_natAbs b n
  · intro h; subst h; rw [hf, euclid_zero]
  · intro h; rw [hf]; exact euclid_sign b n h

/-- Witness for C4 amended at `b = -4`, `n = 6`. -/
theorem egcd_fst_magnitude_sign_witness :
    ((egcd (-4) 6).1).natAbs = Int.gcd (-4) 6 ∧
    Int.sign (egcd (-4) 6).1 = Int.sign (6 : Int) :=
  ⟨(egcd_fst_magnitude_sign (-4) 6).1,
   (egcd_fst_magnitude_sign (-4) 6).2.2 (by decide)⟩

/-- C5: the loop of `egcd` terminates: for a nonzero `n` the next remainder
`b mod n` is strictly smaller in absolute value than `n` (and bounded below
by zero in absolute value), and the loop takes exactly one step to the
updated state, so `egcdLoop` is total by well-founded recursion on
`n.natAbs`. -/
theorem egcdLoop_terminates (b n x0 x1 y0 y1 : Int) (hn : n ≠ 0) :
    (Int.fmod b n).natAbs < n.natAbs ∧
    egcdLoop b n x0 x1 y0 y1
      = egcdLoop n (Int.fmod b n) x1 (x0 - Int.fdiv b n * x1) y1
          (y0 - Int.fdiv b n * y1) :=
  ⟨natAbs_fmod_lt b n hn, egcdLoop_step b x0 x1 y0 y1 hn⟩

/-- Witness for C5 at `b = 12`, `n = 8` with the initial coefficients. -/
theorem egcdLoop_terminates_witness :
    (Int.fmod 12 8).natAbs < (8 : Int).natAbs ∧
    egcdLoop 12 8 1 0 0 1
      = egcdLoop 8 (Int.fmod 12 8) 0 (1 - Int.fdiv 12 8 * 0) 1
          (0 - Int.fdiv 12 8 * 1) :=
  egcdLoop_terminates 12 8 1 0 0 1 (by decide)

/-- C6: `egcd 0 0 = (0, 1, 0)`, and for every integer `b`,
`egcd b 0 = (b, 1, 0)`: with a zero second argument the loop body never
executes and the initial coefficients are returned unchanged. -/
theorem egcd_zero_right :
    egcd 0 0 = (0, 1, 0) ∧ ∀ b : Int, egcd b 0 = (b, 1, 0) :=
  ⟨egcdLoop_zero 0 1 0 0 1, fun b => egcdLoop_zero b 1 0 0 1⟩

/-- C7: `egcd` raises no error on any integer pair: running the loop with
every floor division and floor modulo checked for a zero divisor (and with
enough fuel) never reaches the division-by-zero branch and produces exactly
the result of the total function. -/
theorem egcdChecked_total (b n : Int) : egcdChecked b n = some (egcd b n) :=
  egcdCheckedFuel_complete (n.natAbs + 1) b n 1 0 0 1 (Nat.lt_succ_self _)

/-- C8: the known test vectors of the docstring hold. -/
theorem egcd_known_vectors :
    egcd 1 1 = (1, 0, 1) ∧
    egcd 12 8 = (4, 1, -1) ∧
    egcd 23894798501898 23948178468116 = (2, 2437250447493, -2431817869532) ∧
    egcd (2 ^ 50) (3 ^ 50) = (1, -260414429242905345185687, 408415383037561) :=
  ⟨egcdCheckedFuel_sound 5 _ _ _ _ _ _ _ (by decide),
   egcdCheckedFuel_sound 5 _ _ _ _ _ _ _ (by decide),
   egcdCheckedFuel_sound 60 _ _ _ _ _ _ _ (by decide),
   egcdCheckedFuel_sound 200 _ _ _ _ _ _ _ (by decide)⟩

/-- C9: the Bézout loop invariant `x0*B + y0*N = b ∧ x1*B + y1*N = n` is
established by the initial state `(B, N, 1, 0, 0, 1)` and preserved by each
execution of the loop body under the loop guard `n ≠ 0`. -/
theorem egcd_loop_invariant (B N : Int) :
    egcdInv B N (B, N, 1, 0, 0, 1) ∧
    ∀ s : Int × Int × Int × Int × Int × Int,
      s.2.1 ≠ 0 → egcdInv B N s → egcdInv B N (egcdBody s) := by
  constructor
  · exact ⟨by ring, by ring⟩
  · rintro ⟨b, n, x0, x1, y0, y1⟩ hn ⟨h0, h1⟩
    refine ⟨h1, ?_⟩
    rw [Int.fmod_def b n]
    linear_combination h0 - Int.fdiv b n * h1

/-- Witness for C9: at `B = 12`, `N = 8` the invariant holds initially and
after one execution of the body. -/
theorem egcd_loop_invariant_witness :
    egcdInv 12 8 (egcdBody (12, 8, 1, 0, 0, 1)) :=
  (egcd_loop_invariant 12 8).2 (12, 8, 1, 0, 0, 1) (by decide)
    (egcd_loop_invariant 12 8).1

/-- C10: for every nonzero integer `n`, `egcd 0 n = (n, 0, 1)`: the loop
runs exactly one iteration with quotient `0` and remainder `0`. -/
theorem egcd_zero_left (n : Int) (hn : n ≠ 0) : egcd 0 n = (n, 0, 1) := by
  show egcdLoop 0 n 1 0 0 1 = (n, 0, 1)
  rw [egcdLoop_step _ _ _ _ _ hn, Int.zero_fmod, Int.zero_fdiv]
  norm_num
  exact egcdLoop_zero n 0 1 1 0

/-- Witness for C10 at `n = 5`. -/
theorem egcd_zero_left_witness : egcd 0 5 = (5, 0, 1) :=
  egcd_zero_left 5 (by decide)

end EgcdPy
